import Mathlib

/-!
Verification of the feature-engineering, label-alignment and
chronological-split core of a per-ticker return-regression training
pipeline (`src/features.py`, `src/train.py`, `src/utils.py`).

Pandas dataframes are modelled as lists of `(date, cells)` rows together
with an explicit list of column labels; dates are integers (days since
1970-01-01); numeric cells are exact rationals extended with NaN and
signed-infinity markers.  IEEE floats are modelled by exact rational
arithmetic: none of the properties proved here depends on rounding.
-/

namespace Trainer

/-- A dataframe cell: a finite numeric value, NaN, or a signed infinity. -/
inductive Cell where
  | nan : Cell
  | inf : Cell
  | ninf : Cell
  | val : ℚ → Cell
  deriving DecidableEq, Repr

/-- `pd.isna`-style test: only NaN counts as missing. -/
def Cell.isNan : Cell → Bool
  | .nan => true
  | _ => false

/-- Is the cell a finite numeric value? -/
def Cell.isVal : Cell → Bool
  | .val _ => true
  | _ => false

/-- `df.replace([np.inf, -np.inf], np.nan)` on one cell. -/
def replaceInfCell : Cell → Cell
  | .inf => .nan
  | .ninf => .nan
  | c => c

/-- `clip(lo, hi)` on one cell: numpy applies the lower bound first, then
the upper bound, so a finite `q` becomes `min (max q lo) hi`. -/
def clipCell (lo hi : ℚ) : Cell → Cell
  | .nan => .nan
  | .inf => .val hi
  | .ninf => .val (min lo hi)
  | .val q => .val (min (max q lo) hi)

/-- One step of `pct_change`: the relative change from `prev` to `cur`,
`cur / prev - 1`, with IEEE semantics for NaN operands and division by
zero (`c / 0` is `±inf` for `c ≠ 0` and NaN for `0 / 0`). -/
def pctCell : Cell → Cell → Cell
  | .nan, _ => .nan
  | _, .nan => .nan
  | .val p, .val c =>
      if p = 0 then (if c = 0 then .nan else if 0 < c then .inf else .ninf)
      else .val (c / p - 1)
  | .val p, .inf => if 0 ≤ p then .inf else .ninf
  | .val p, .ninf => if 0 ≤ p then .ninf else .inf
  | .inf, .val _ => .val (-1)
  | .ninf, .val _ => .val (-1)
  | .inf, .inf => .nan
  | .inf, .ninf => .nan
  | .ninf, .inf => .nan
  | .ninf, .ninf => .nan

/-- Calendar-month key of a day count (days since 1970-01-01), computed as
`year * 12 + (month - 1)` in the proleptic Gregorian calendar via the
standard civil-from-days algorithm; this models
`DatetimeIndex.to_period("M")`.  (Lean's `/` and `%` on `ℤ` are Euclidean;
all inner divisions here act on non-negative operands, and the era
division wants flooring, so the translation is exact.) -/
def ymOf (z : ℤ) : ℤ :=
  let z' := z + 719468
  let era := z' / 146097
  let doe := z' % 146097
  let yoe := (doe - doe / 1460 + doe / 36524 - doe / 146096) / 365
  let y := yoe + era * 400
  let doy := doe - (365 * yoe + yoe / 4 - yoe / 100)
  let mp := (5 * doy + 2) / 153
  let m := mp + (if mp < 10 then 3 else -9)
  let y' := y + (if m ≤ 2 then 1 else 0)
  y' * 12 + (m - 1)

/-- Day of the week, Monday = 0 … Sunday = 6 (1970-01-01 was a Thursday). -/
def weekday (z : ℤ) : ℤ := (z + 3) % 7

/-- The next strictly-later business (non-weekend) day. -/
def nextBusinessDay (z : ℤ) : ℤ :=
  if weekday (z + 1) = 5 then z + 3
  else if weekday (z + 1) = 6 then z + 2
  else z + 1

/-- `date + pandas.tseries.offsets.BDay(h)`: advance `h` business days,
weekend-aware and holiday-unaware. -/
def addBDays (z : ℤ) : ℕ → ℤ
  | 0 => z
  | n + 1 => addBDays (nextBusinessDay z) n

/-- A pandas `DataFrame` carrying a `DatetimeIndex`: ordered rows of
`(date, cells)`, plus the column labels.  `DF.WF` states that every row
has exactly one cell per column. -/
structure DF where
  cols : List String
  rows : List (ℤ × List Cell)
  deriving DecidableEq, Repr

def DF.WF (df : DF) : Prop := ∀ r ∈ df.rows, r.2.length = df.cols.length

/-- The index of the frame, in row order. -/
def DF.index (df : DF) : List ℤ := df.rows.map Prod.fst

/-- `sort_index()`: stable sort of the rows by date. -/
def sortRows (rows : List (ℤ × List Cell)) : List (ℤ × List Cell) :=
  List.insertionSort (fun a b => a.1 ≤ b.1) rows

def DF.sortIndex (df : DF) : DF := ⟨df.cols, sortRows df.rows⟩

/-- Python `s.startswith("ret_")` on a column label (byte-for-byte the
same test as Lean's `String.startsWith`, written over the character
lists so that it evaluates in proofs). -/
def startsWithRet (s : String) : Bool := "ret_".data.isPrefixOf s.data

/-- `row[c]`: the cell of a row at (the first occurrence of) column `c`. -/
def cellAt (cols : List String) (cs : List Cell) (c : String) : Cell :=
  cs.getD (List.indexOf c cols) .nan

/-- `df[c]` as a series of `(date, value)` pairs. -/
def colSeries (df : DF) (c : String) : List (ℤ × Cell) :=
  df.rows.map (fun r => (r.1, cellAt df.cols r.2 c))

/-- `df[cs]`: column selection, keeping the index. -/
def selectCols (df : DF) (cs : List String) : DF :=
  ⟨cs, df.rows.map (fun r => (r.1, cs.map (cellAt df.cols r.2)))⟩

/-- `s.shift(-h)`: the value at position `t` becomes the value previously
at `t + h`; the final `h` positions become NaN; the index is unchanged. -/
def shiftNeg (h : ℕ) (s : List (ℤ × Cell)) : List (ℤ × Cell) :=
  (s.map Prod.fst).zip
    ((s.map Prod.snd).drop h ++ List.replicate (min h s.length) Cell.nan)

/-- Python `xs[:-h]` (note that `xs[:-0]` is empty, not the whole list). -/
def ilocToNeg {α : Type} (h : ℕ) (xs : List α) : List α :=
  if h = 0 then [] else xs.take (xs.length - h)

/-- `df.iloc[:-h]` on a whole frame. -/
def ilocNegDF (h : ℕ) (df : DF) : DF := ⟨df.cols, ilocToNeg h df.rows⟩

/-- `make_xy` (`train.py`): per-target, per-horizon label and feature
construction.  `y = features["ret_" + target].shift(-h)`, `X` = all
`ret_*` columns except the target's own return column, both trimmed by
the final `h` rows (`iloc[:-h]`); the source asserts
`X.index.equals(y.index)` before returning. -/
def makeXY (features : DF) (target : String) (h : ℕ) :
    Except String (DF × List (ℤ × Cell) × List String) :=
  let tcol := "ret_" ++ target
  if tcol ∈ features.cols then
    let y0 := shiftNeg h (colSeries features tcol)
    let featureCols := features.cols.filter (fun c => startsWithRet c && c != tcol)
    let X := ilocNegDF h (selectCols features featureCols)
    let y := ilocToNeg h y0
    if X.index = y.map Prod.fst then .ok (X, y, featureCols)
    else .error "AssertionError"
  else .error ("Brak kolumny " ++ tcol ++ " w features_df")

/-! ### `ensure_datetime_index` and `time_split` (`utils.py`) -/

/-- The input of `time_split` as the dynamic check of
`ensure_datetime_index` sees it: either a frame carrying a
`DatetimeIndex` (in any order), or a frame whose index is of some other
kind — for the latter the contents never matter, because the type check
fails before anything reads them. -/
inductive TSInput where
  | dt (rows : List (ℤ × List Cell)) : TSInput
  | nonDt : TSInput

/-- `ensure_datetime_index`: raises `TypeError` unless the index is a
`DatetimeIndex`.  It checks only the type of the index, never its
ordering. -/
def ensureDatetimeIndex : TSInput → Except String Unit
  | .dt _ => .ok ()
  | .nonDt => .error "TypeError: index musi byc DatetimeIndex"

/-- The raw rows of a `time_split` input (only ever read after the
`DatetimeIndex` check has succeeded). -/
def TSInput.rowsOf : TSInput → List (ℤ × List Cell)
  | .dt rows => rows
  | .nonDt => []

/-- The pure core of `time_split`: sort by date, then slice
`train = df.loc[:train_end]`, `val = df.loc[train_end + 1 day :
val_end]`, `test = df.loc[val_end + 1 day :]`.  On a sorted index a
`loc` label slice is the corresponding filter, and adding
`pd.Timedelta(days=1)` to a bound is `+ 1` on day-granular dates. -/
def splitSlices (rows : List (ℤ × List Cell)) (trainEnd valEnd : ℤ) :
    List (ℤ × List Cell) × List (ℤ × List Cell) × List (ℤ × List Cell) :=
  let sorted := sortRows rows
  (sorted.filter (fun r => decide (r.1 ≤ trainEnd)),
   sorted.filter (fun r => decide (trainEnd + 1 ≤ r.1) && decide (r.1 ≤ valEnd)),
   sorted.filter (fun r => decide (valEnd + 1 ≤ r.1)))

/-- `time_split` (`utils.py`): check the index type, then sort and
slice. -/
def timeSplit (df : TSInput) (trainEnd valEnd : ℤ) :
    Except String (List (ℤ × List Cell) × List (ℤ × List Cell)
      × List (ℤ × List Cell)) := do
  ensureDatetimeIndex df
  pure (splitSlices df.rowsOf trainEnd valEnd)

/-! ### `load_prices_csv` (`features.py`) -/

/-- One raw CSV row after the out-of-scope string parsing: the parse
result of the date cell (`none` = unparsable, i.e. `NaT` under
`errors="coerce"`), and the parse results of the remaining cells
(`none` = non-numeric, i.e. NaN under `pd.to_numeric(errors="coerce")`). -/
def RawRow : Type := Option ℤ × List (Option ℚ)

/-- `load_prices_csv` (`features.py`) after `pd.read_csv`: parse the date
column coercing failures to `NaT`, drop the rows whose date is `NaT`,
set the date as the index, sort by it, and re-parse every remaining cell
as numeric, coercing failures to NaN. -/
def loadPricesCsv (raw : List RawRow) : List (ℤ × List Cell) :=
  sortRows (raw.filterMap (fun r =>
    r.1.map (fun d => (d, r.2.map (fun o => match o with
      | some q => Cell.val q
      | none => Cell.nan)))))

/-! ### `build_features` (`features.py`) -/

/-- `df.pct_change()` values for the tail rows, each row computed from
the row before it. -/
def pctRowsAux : List Cell → List (ℤ × List Cell) → List (ℤ × List Cell)
  | _, [] => []
  | prev, r :: rs => (r.1, List.zipWith pctCell prev r.2) :: pctRowsAux r.2 rs

/-- `df.pct_change()`: row-on-previous-row relative change; the first
row is all-NaN. -/
def DF.pctChange (df : DF) : DF :=
  ⟨df.cols,
   match df.rows with
   | [] => []
   | r :: rs => (r.1, r.2.map (fun _ => Cell.nan)) :: pctRowsAux r.2 rs⟩

/-- `add_prefix("ret_")` on the column labels. -/
def addRetPref (df : DF) : DF :=
  ⟨df.cols.map (fun c => "ret_" ++ c), df.rows⟩

/-- The finite values of a cell list; aggregation skips NaN, as pandas
`skipna=True` does (the loader never produces ±infinity cells). -/
def finiteVals (cs : List Cell) : List ℚ :=
  cs.filterMap (fun c => match c with | .val q => some q | _ => none)

/-- Mean of the non-missing values of a cell list (NaN when empty). -/
def meanStat (cs : List Cell) : Cell :=
  let v := finiteVals cs
  if v.length = 0 then .nan else .val (v.sum / (v.length : ℚ))

/-- Median of the non-missing values (NaN when empty; the mean of the
two middle values for an even count). -/
def medianStat (cs : List Cell) : Cell :=
  let v := List.insertionSort (fun a b : ℚ => a ≤ b) (finiteVals cs)
  if v.length = 0 then .nan
  else if v.length % 2 = 1 then .val (v.getD (v.length / 2) 0)
  else .val ((v.getD (v.length / 2 - 1) 0 + v.getD (v.length / 2) 0) / 2)

/-- The monthly dispersion statistic.  pandas reports the sample
standard deviation (`ddof = 1`, NaN for fewer than two observations);
its square root is irrational in general, so the model keeps the sample
variance — a determinate function of exactly the same observations.  No
claim proved here depends on the numeric value of this statistic, only
on which rows it reads. -/
def stdStat (cs : List Cell) : Cell :=
  let v := finiteVals cs
  if v.length < 2 then .nan
  else
    let m := v.sum / (v.length : ℚ)
    .val ((v.map (fun x => (x - m) ^ 2)).sum / ((v.length : ℚ) - 1))

/-- The cells of column `j` across a list of rows. -/
def colCells (j : ℕ) (rows : List (ℤ × List Cell)) : List Cell :=
  rows.map (fun r => r.2.getD j Cell.nan)

/-- One row of `df.resample("ME").agg(["mean", "median", "std"])`: per
input column the three statistics over the given rows, in the pandas
column order (grouped by column). -/
def aggRow (ncols : ℕ) (rows : List (ℤ × List Cell)) : List Cell :=
  ((List.range ncols).map (fun j =>
    [meanStat (colCells j rows), medianStat (colCells j rows),
     stdStat (colCells j rows)])).flatten

/-- The labels of the monthly-statistics columns, `f"{t}_{s}"`. -/
def aggNames (cols : List String) : List String :=
  (cols.map (fun t => [t ++ "_mean", t ++ "_median", t ++ "_std"])).flatten

/-- `df.resample("ME").agg(...)` with the index converted to monthly
periods: one row per calendar month from the earliest to the latest
month present in the data (a month with no rows gets all-NaN
statistics), carrying the aggregate statistics of that month's rows. -/
def monthlyTable (ncols : ℕ) (rows : List (ℤ × List Cell)) :
    List (ℤ × List Cell) :=
  match rows.map (fun r => ymOf r.1) with
  | [] => []
  | m :: ms =>
    let lo := ms.foldr min m
    let hi := ms.foldr max m
    (List.range (hi - lo + 1).toNat).map (fun (i : ℕ) =>
      (lo + (i : ℤ),
       aggRow ncols (rows.filter (fun r => ymOf r.1 == lo + (i : ℤ)))))

/-- `monthly.shift(1)`: each month's row takes the statistics of the row
before it; the first month becomes all-NaN. -/
def shiftMonthly (width : ℕ) (t : List (ℤ × List Cell)) :
    List (ℤ × List Cell) :=
  (t.map Prod.fst).zip (List.replicate width Cell.nan :: t.map Prod.snd)

/-- `daily.join(monthly_lag1, on="ym")` followed by
`.drop(columns=["ym"])`: append to each daily row the lagged monthly
statistics of its calendar month.  (The code materialises the month key
as a temporary `ym` column purely as join key and drops it again; the
model joins on the computed key directly.)  A missing key yields an
all-NaN block, as a pandas left join does. -/
def joinMonthly (ncols : ℕ) (rows : List (ℤ × List Cell)) :
    List (ℤ × List Cell) :=
  let lag := shiftMonthly (3 * ncols) (monthlyTable ncols rows)
  rows.map (fun r =>
    (r.1, r.2 ++ (lag.lookup (ymOf r.1)).getD
      (List.replicate (3 * ncols) Cell.nan)))

/-- Proof-side characterisation (not part of the embedding): the value
the lag-1 monthly table associates with month `k` when the table starts
at month `lo` — all-NaN for the first month, otherwise the aggregates of
month `k - 1`. -/
def lagVal (n : ℕ) (rows : List (ℤ × List Cell)) (lo k : ℤ) : List Cell :=
  if k = lo then List.replicate (3 * n) Cell.nan
  else aggRow n (rows.filter (fun x => ymOf x.1 == k - 1))

/-- `pd.concat([a, b], axis=1)` for two frames derived from the same
index, rows aligned positionally. -/
def concatH (a b : DF) : DF :=
  ⟨a.cols ++ b.cols,
   List.zipWith (fun ra rb => (ra.1, ra.2 ++ rb.2)) a.rows b.rows⟩

/-- `replace([inf, -inf], nan)` over a whole frame. -/
def replaceInfDF (df : DF) : DF :=
  ⟨df.cols, df.rows.map (fun r => (r.1, r.2.map replaceInfCell))⟩

/-- `dropna()`: drop every row containing at least one NaN. -/
def dropna (df : DF) : DF :=
  ⟨df.cols, df.rows.filter (fun r => r.2.all (fun c => !c.isNan))⟩

/-- `out.loc[:, ret_cols] = out[ret_cols].clip(lo, hi)`: clamp every
column whose label starts with `ret_`. -/
def clipDF (lo hi : ℚ) (df : DF) : DF :=
  ⟨df.cols, df.rows.map (fun r =>
    (r.1, List.zipWith
      (fun c x => if startsWithRet c then clipCell lo hi x else x)
      df.cols r.2))⟩

/-- `build_features` (`features.py`): sort by date; compute the `ret_*`
returns with `pct_change`; optionally join the lag-1 monthly statistics;
concatenate; replace infinities by NaN and drop NaN rows; optionally
clip the `ret_*` columns.  (The `DatetimeIndex` type check always
succeeds here, where the index is a list of dates by type.) -/
def buildFeatures (dfPrices : DF) (includeMonthly clipReturns : Bool)
    (lo hi : ℚ) : DF :=
  let df := dfPrices.sortIndex
  let rets := addRetPref df.pctChange
  let out := if includeMonthly
    then ⟨df.cols ++ aggNames df.cols, joinMonthly df.cols.length df.rows⟩
    else df
  let out2 := concatH out rets
  let out3 := dropna (replaceInfDF out2)
  if clipReturns then clipDF lo hi out3 else out3

/-! ### The per-(target, horizon) loop of `main` (`train.py`) -/

/-- The essential fields of one published test-prediction row
(`predictions_test.csv`; the remaining columns are constants of the
run). -/
structure TestPredRow where
  asofDate : ℤ
  yTrue : Cell
  yPred : ℚ
  deriving DecidableEq, Repr

/-- The single published latest-forecast row (`forecast_latest.csv`). -/
structure ForecastRow where
  asofDate : ℤ
  forecastForDate : ℤ
  horizonDays : ℕ
  predRetNext : ℚ
  predSign : ℕ
  deriving DecidableEq, Repr

/-- The outcome of one `(target, horizon)` iteration of the training
loop: skipped for insufficient data (no artifacts emitted), or the two
published artifacts. -/
inductive PairOutcome where
  | skipped (nTrain nVal nTest : ℕ) : PairOutcome
  | published (testPreds : List TestPredRow) (forecast : ForecastRow) :
      PairOutcome
  deriving DecidableEq, Repr

/-- `X.join(y.rename("y"), how="inner")` for the `X` and `y` of
`make_xy`: the two carry an identical index (asserted in `make_xy`), so
the inner join pairs rows positionally, appending `y` as last column. -/
def joinXY (X : DF) (y : List (ℤ × Cell)) : DF :=
  ⟨X.cols ++ ["y"],
   List.zipWith (fun rx ry => (rx.1, rx.2 ++ [ry.2])) X.rows y⟩

/-- `assert_no_nan` (`utils.py`): count the NaN cells, raise on any. -/
def assertNoNan (df : DF) : Except String Unit :=
  if (df.rows.map (fun r => (r.2.filter Cell.isNan).length)).sum = 0
  then .ok ()
  else .error "ValueError: zawiera NaN"

/-- `features_df.index.max()` (the `asof` date of the run). -/
def indexMax (df : DF) : ℤ :=
  match df.index with
  | [] => 0
  | x :: xs => xs.foldr max x

/-- The fit/predict/publish tail of one loop iteration (`train.py`,
after the skip check): the model — the external collaborator, a per-row
prediction function — is fit and used on the test split, and the
latest-forecast row is built from the last row of the full unsplit `X`
(`X.iloc[[-1]]`), the asof date `features_df.index.max()` advanced by
`h` business days, and the sign indicator `int(pred_last > 0)`. -/
def publishPhase (predict : List Cell → ℚ) (features X data : DF)
    (fcols : List String) (h : ℕ) (testDf : List (ℤ × List Cell)) :
    Except String PairOutcome :=
  let testPreds := testDf.map (fun r =>
    { asofDate := r.1,
      yTrue := cellAt data.cols r.2 "y",
      yPred := predict (fcols.map (cellAt data.cols r.2)) })
  match X.rows.getLast? with
  | none => .error "IndexError: X jest puste"
  | some xlast =>
    let lastAsof := indexMax features
    let predLast := predict xlast.2
    let forecast : ForecastRow :=
      { asofDate := lastAsof,
        forecastForDate := addBDays lastAsof h,
        horizonDays := h,
        predRetNext := predLast,
        predSign := if 0 < predLast then 1 else 0 }
    pure (.published testPreds forecast)

/-- One iteration of the per-(target, horizon) loop of `main`
(`train.py`): build the supervised dataset, clean and assert it, split
it chronologically, skip — warn and emit no artifacts — when any split
is smaller than `min_samples`, and otherwise fit the external model,
predict, and publish the two artifacts. -/
def processPair (predict : List Cell → ℚ) (features : DF) (target : String)
    (h : ℕ) (trainEnd valEnd : ℤ) (minSamples : ℕ) :
    Except String PairOutcome := do
  let (X, y, fcols) ← makeXY features target h
  let data := dropna (replaceInfDF (joinXY X y))
  assertNoNan data
  let (trainDf, valDf, testDf) ← timeSplit (.dt data.rows) trainEnd valEnd
  if trainDf.length < minSamples ∨ valDf.length < minSamples ∨
      testDf.length < minSamples then
    pure (.skipped trainDf.length valDf.length testDf.length)
  else
    publishPhase predict features X data fcols h testDf

/-- Proof-side abbreviation (not part of the embedding): the cleaned
supervised dataset `data` that the loop builds for one pair, written out
with the `X` and `y` that `make_xy` returns when the target column is
present. -/
def pairDataOf (features : DF) (target : String) (h : ℕ) : DF :=
  dropna (replaceInfDF (joinXY
    (ilocNegDF h (selectCols features
      (features.cols.filter
        (fun c => startsWithRet c && c != ("ret_" ++ target)))))
    (ilocToNeg h (shiftNeg h (colSeries features ("ret_" ++ target))))))

/-- A concrete feature matrix with four days of data, so that all three
chronological splits can be non-empty. -/
def exDF4 : DF :=
  ⟨["ret_A", "ret_B"],
   [((0 : ℤ), [Cell.val 1, Cell.val 2]),
    (1, [Cell.val 3, Cell.val 4]),
    (2, [Cell.val 5, Cell.val 6]),
    (3, [Cell.val 7, Cell.val 8])]⟩

/-! ### An object heap, for the frame-effect claim on `build_features` -/

/-- A tiny object heap: dataframe objects addressed by allocation order.
Python variables are references into it. -/
structure Heap where
  objs : List DF

def Heap.get (hp : Heap) (r : ℕ) : DF := hp.objs.getD r ⟨[], []⟩

/-- In-place mutation through a reference (`df[...] = ...`,
`df.loc[...] = ...`). -/
def Heap.set (hp : Heap) (r : ℕ) (d : DF) : Heap := ⟨hp.objs.set r d⟩

/-- Allocation of a fresh object: every pandas operation returning a new
frame, and every explicit `.copy()`. -/
def Heap.alloc (hp : Heap) (d : DF) : Heap × ℕ :=
  (⟨hp.objs ++ [d]⟩, hp.objs.length)

/-- Proof-side predicate (not part of the embedding): the first `n` heap
objects of `hp` are intact in `hp'`. -/
def Heap.Pres (n : ℕ) (hp hp' : Heap) : Prop :=
  n ≤ hp'.objs.length ∧ ∀ r < n, hp'.get r = hp.get r

/-- `daily["ym"] = daily.index.to_period("M")`: the month key appended
as a column (stored as its numeric key). -/
def addYmCol (df : DF) : DF :=
  ⟨df.cols ++ ["ym"],
   df.rows.map (fun r => (r.1, r.2 ++ [Cell.val (ymOf r.1)]))⟩

/-- `build_features` as executed on the object heap, statement by
statement: every pandas call returning a new frame allocates, and the
two in-place writes of the source (`daily["ym"] = …` and
`out.loc[:, ret_cols] = …`) mutate their (freshly copied) objects
through `Heap.set`.  Returns the final heap and the reference holding
the result. -/
def buildFeaturesProg (hp0 : Heap) (dfPrices : ℕ)
    (includeMonthly clipReturns : Bool) (lo hi : ℚ) : Heap × ℕ :=
  let a1 := hp0.alloc ((hp0.get dfPrices).sortIndex)
  let hp1 := a1.1
  let df := a1.2
  let a2 := hp1.alloc (addRetPref (hp1.get df).pctChange)
  let hp2 := a2.1
  let rets := a2.2
  let a3 := hp2.alloc (hp2.get df)
  let b :=
    if includeMonthly then
      let m1 := a3.1.alloc
        ⟨aggNames (a3.1.get df).cols,
         monthlyTable (a3.1.get df).cols.length (a3.1.get df).rows⟩
      let m2 := m1.1.alloc
        ⟨(m1.1.get m1.2).cols,
         shiftMonthly (m1.1.get m1.2).cols.length (m1.1.get m1.2).rows⟩
      let m3 := m2.1.alloc (m2.1.get df)
      let hpy := m3.1.set m3.2 (addYmCol (m3.1.get m3.2))
      let m4 := hpy.alloc
        ⟨(hpy.get df).cols ++ aggNames (hpy.get df).cols,
         joinMonthly (hpy.get df).cols.length (hpy.get df).rows⟩
      m4
    else a3
  let c1 := b.1.alloc (concatH (b.1.get b.2) (b.1.get rets))
  let c2 := c1.1.alloc (dropna (replaceInfDF (c1.1.get c1.2)))
  let hpf :=
    if clipReturns then c2.1.set c2.2 (clipDF lo hi (c2.1.get c2.2))
    else c2.1
  (hpf, c2.2)

/-! ### Concrete fixtures used to instantiate the theorems -/

/-- A small concrete feature matrix: two return columns over three
days. -/
def exDF : DF :=
  ⟨["ret_A", "ret_B"],
   [((0 : ℤ), [Cell.val 1, Cell.val 2]),
    (1, [Cell.val 3, Cell.val 4]),
    (2, [Cell.val 5, Cell.val 6])]⟩

instance : IsTotal (ℤ × List Cell) (fun a b => a.1 ≤ b.1) :=
  ⟨fun a b => le_total a.1 b.1⟩

instance : IsTrans (ℤ × List Cell) (fun a b => a.1 ≤ b.1) :=
  ⟨fun _ _ _ h1 h2 => le_trans h1 h2⟩

/-! ## Theorems -/

theorem shiftNeg_length (h : ℕ) (s : List (ℤ × Cell)) :
    (shiftNeg h s).length = s.length := by
  simp [shiftNeg]
  omega

theorem ilocToNeg_length {α : Type} (h : ℕ) (hh : 1 ≤ h) (xs : List α) :
    (ilocToNeg h xs).length = xs.length - h := by
  unfold ilocToNeg
  rw [if_neg (by omega)]
  simp

theorem ilocToNeg_map {α β : Type} (f : α → β) (h : ℕ) (xs : List α) :
    (ilocToNeg h xs).map f = ilocToNeg h (xs.map f) := by
  unfold ilocToNeg
  split <;> simp [List.map_take]

theorem shiftNeg_fst (h : ℕ) (s : List (ℤ × Cell)) :
    (shiftNeg h s).map Prod.fst = s.map Prod.fst := by
  unfold shiftNeg
  apply List.map_fst_zip
  simp
  omega

theorem makeXY_index_eq (features : DF) (target : String) (h : ℕ) :
    (ilocNegDF h (selectCols features
        (features.cols.filter
          (fun c => startsWithRet c && c != ("ret_" ++ target))))).index
      = (ilocToNeg h (shiftNeg h
          (colSeries features ("ret_" ++ target)))).map Prod.fst := by
  simp only [ilocNegDF, DF.index, ilocToNeg_map]
  congr 1
  rw [shiftNeg_fst]
  simp [selectCols, colSeries, List.map_map]

theorem makeXY_ok (features : DF) (target : String) (h : ℕ)
    (hmem : ("ret_" ++ target) ∈ features.cols) :
    makeXY features target h =
      .ok (ilocNegDF h (selectCols features
             (features.cols.filter
               (fun c => startsWithRet c && c != ("ret_" ++ target)))),
           ilocToNeg h (shiftNeg h (colSeries features ("ret_" ++ target))),
           features.cols.filter
             (fun c => startsWithRet c && c != ("ret_" ++ target))) := by
  simp only [makeXY]
  rw [if_pos hmem, if_pos (makeXY_index_eq features target h)]

theorem shiftNeg_snd (h : ℕ) (s : List (ℤ × Cell)) :
    (shiftNeg h s).map Prod.snd
      = (s.map Prod.snd).drop h ++ List.replicate (min h s.length) Cell.nan := by
  unfold shiftNeg
  apply List.map_snd_zip
  simp
  omega

theorem makeXY_y_vals (features : DF) (target : String) (h : ℕ) (hh : 1 ≤ h) :
    (ilocToNeg h (shiftNeg h (colSeries features ("ret_" ++ target)))).map
        Prod.snd
      = ((colSeries features ("ret_" ++ target)).map Prod.snd).drop h := by
  set s := colSeries features ("ret_" ++ target) with hs
  rw [ilocToNeg_map]
  unfold ilocToNeg
  rw [if_neg (by omega), shiftNeg_snd]
  have hl : (List.drop h (List.map Prod.snd s)
      ++ List.replicate (min h s.length) Cell.nan).length = s.length := by
    simp
    omega
  rw [hl, List.take_append_of_le_length (by simp)]
  simp

/-- C1: for every feature matrix containing the target's return column and
every horizon `h ≥ 1`, `make_xy` succeeds and the supervised dataset it
builds satisfies: `X` and `y` each have `len(features) - h` rows,
`X.index` equals `y.index` exactly (same order, length and values), the
values of `y` are the target's return series dropped by `h` positions,
and hence `y` at row `t` equals the target's return `h` rows later. -/
theorem c1_make_xy_label_alignment (features : DF) (target : String) (h : ℕ)
    (hh : 1 ≤ h) (hmem : ("ret_" ++ target) ∈ features.cols) :
    ∃ X y fcols, makeXY features target h = .ok (X, y, fcols) ∧
      X.rows.length = features.rows.length - h ∧
      y.length = features.rows.length - h ∧
      X.index = y.map Prod.fst ∧
      y.map Prod.snd
        = ((colSeries features ("ret_" ++ target)).map Prod.snd).drop h ∧
      ∀ t, t < y.length →
        (y.map Prod.snd).getD t Cell.nan
          = ((colSeries features ("ret_" ++ target)).map Prod.snd).getD
              (t + h) Cell.nan := by
  refine ⟨_, _, _, makeXY_ok features target h hmem, ?_, ?_,
    makeXY_index_eq features target h, makeXY_y_vals features target h hh, ?_⟩
  · simp only [ilocNegDF]
    rw [ilocToNeg_length h hh]
    simp [selectCols]
  · rw [ilocToNeg_length h hh, shiftNeg_length]
    simp [colSeries]
  · intro t ht
    rw [makeXY_y_vals features target h hh]
    rw [ilocToNeg_length h hh, shiftNeg_length] at ht
    rw [List.getD_eq_getElem?_getD, List.getD_eq_getElem?_getD,
      List.getElem?_drop, Nat.add_comm h t]

theorem c1_make_xy_label_alignment_witness :
    ∃ X y fcols, makeXY exDF "A" 1 = .ok (X, y, fcols) ∧
      X.rows.length = exDF.rows.length - 1 ∧
      y.length = exDF.rows.length - 1 ∧
      X.index = y.map Prod.fst ∧
      y.map Prod.snd = ((colSeries exDF ("ret_" ++ "A")).map Prod.snd).drop 1 ∧
      ∀ t, t < y.length →
        (y.map Prod.snd).getD t Cell.nan
          = ((colSeries exDF ("ret_" ++ "A")).map Prod.snd).getD
              (t + 1) Cell.nan :=
  c1_make_xy_label_alignment exDF "A" 1 (by decide) (by decide)

/-- C4: for every target `T`, the feature columns selected by `make_xy`
are exactly the `ret_*` columns of the feature matrix minus `T`'s own
return column `ret_T`; in particular `ret_T` never appears among the
columns of `X`. -/
theorem c4_leakage_guard (features : DF) (target : String) (h : ℕ)
    (hmem : ("ret_" ++ target) ∈ features.cols) :
    ∃ X y fcols, makeXY features target h = .ok (X, y, fcols) ∧
      X.cols = fcols ∧
      fcols = features.cols.filter
        (fun c => startsWithRet c && c != ("ret_" ++ target)) ∧
      (∀ c, c ∈ fcols ↔
        (c ∈ features.cols ∧ startsWithRet c = true ∧ c ≠ "ret_" ++ target)) ∧
      ("ret_" ++ target) ∉ X.cols := by
  refine ⟨_, _, _, makeXY_ok features target h hmem, rfl, rfl, ?_, ?_⟩
  · intro c
    simp only [List.mem_filter, Bool.and_eq_true, bne_iff_ne]
  · intro hc
    have hf := List.mem_filter.mp hc
    simp at hf

theorem c4_leakage_guard_witness :
    ∃ X y fcols, makeXY exDF "A" 1 = .ok (X, y, fcols) ∧
      X.cols = fcols ∧
      fcols = exDF.cols.filter
        (fun c => startsWithRet c && c != ("ret_" ++ "A")) ∧
      (∀ c, c ∈ fcols ↔
        (c ∈ exDF.cols ∧ startsWithRet c = true ∧ c ≠ "ret_" ++ "A")) ∧
      ("ret_" ++ "A") ∉ X.cols :=
  c4_leakage_guard exDF "A" 1 (by decide)

/-- Splitting a list by three mutually exclusive, jointly exhaustive
predicates yields the original list up to permutation. -/
theorem filter_three_perm {α : Type} (p q s : α → Bool) (l : List α)
    (hx : ∀ x ∈ l,
      (p x = true ∧ q x = false ∧ s x = false) ∨
      (p x = false ∧ q x = true ∧ s x = false) ∨
      (p x = false ∧ q x = false ∧ s x = true)) :
    (l.filter p ++ l.filter q ++ l.filter s).Perm l := by
  induction l with
  | nil => simp
  | cons x xs ih =>
    have hrest : ∀ y ∈ xs,
        (p y = true ∧ q y = false ∧ s y = false) ∨
        (p y = false ∧ q y = true ∧ s y = false) ∨
        (p y = false ∧ q y = false ∧ s y = true) :=
      fun y hy => hx y (by simp [hy])
    rcases hx x (by simp) with ⟨h1, h2, h3⟩ | ⟨h1, h2, h3⟩ | ⟨h1, h2, h3⟩
    · simp only [List.filter_cons, h1, h2, h3, if_true, if_false,
        Bool.false_eq_true]
      exact (ih hrest).cons x
    · simp only [List.filter_cons, h1, h2, h3, if_true, if_false,
        Bool.false_eq_true]
      exact ((List.perm_middle.append_right _).trans ((ih hrest).cons x))
    · simp only [List.filter_cons, h1, h2, h3, if_true, if_false,
        Bool.false_eq_true]
      exact (List.perm_middle.trans ((ih hrest).cons x))

/-- C2: for every time-indexed dataset and boundaries
`train_end < val_end`, `time_split` returns three slices whose
concatenation is a permutation of the original rows (each row exactly
once — no gaps, no duplicates), with `train` exactly the rows dated
`≤ train_end`, `val` exactly the rows in `(train_end, val_end]`, and
`test` exactly the rows dated `> val_end`. -/
theorem c2_time_split_partition (rows : List (ℤ × List Cell))
    (t1 t2 : ℤ) (hb : t1 < t2) :
    ∃ tr va te, timeSplit (.dt rows) t1 t2 = .ok (tr, va, te) ∧
      (tr ++ va ++ te).Perm rows ∧
      (∀ r, r ∈ tr ↔ r ∈ rows ∧ r.1 ≤ t1) ∧
      (∀ r, r ∈ va ↔ r ∈ rows ∧ t1 < r.1 ∧ r.1 ≤ t2) ∧
      (∀ r, r ∈ te ↔ r ∈ rows ∧ t2 < r.1) := by
  have hperm : (sortRows rows).Perm rows := List.perm_insertionSort _ rows
  refine ⟨_, _, _, rfl, ?_, ?_, ?_, ?_⟩
  · refine (filter_three_perm _ _ _ _ ?_).trans hperm
    intro x _
    simp only [decide_eq_true_eq, decide_eq_false_iff_not, Bool.and_eq_true,
      Bool.and_eq_false_iff, not_and, not_le]
    omega
  · intro r
    simp only [splitSlices, TSInput.rowsOf]
    rw [List.mem_filter, hperm.mem_iff]
    simp only [decide_eq_true_eq]
  · intro r
    simp only [splitSlices, TSInput.rowsOf]
    rw [List.mem_filter, hperm.mem_iff]
    simp only [Bool.and_eq_true, decide_eq_true_eq]
    constructor
    · rintro ⟨h1, h2, h3⟩
      exact ⟨h1, by omega, h3⟩
    · rintro ⟨h1, h2, h3⟩
      exact ⟨h1, by omega, h3⟩
  · intro r
    simp only [splitSlices, TSInput.rowsOf]
    rw [List.mem_filter, hperm.mem_iff]
    simp only [decide_eq_true_eq]
    constructor
    · rintro ⟨h1, h2⟩
      exact ⟨h1, by omega⟩
    · rintro ⟨h1, h2⟩
      exact ⟨h1, by omega⟩

theorem c2_time_split_partition_witness :
    ∃ tr va te,
      timeSplit (.dt [((5 : ℤ), ([] : List Cell)), (1, []), (3, [])]) 2 4
        = .ok (tr, va, te) ∧
      (tr ++ va ++ te).Perm [((5 : ℤ), ([] : List Cell)), (1, []), (3, [])] ∧
      (∀ r, r ∈ tr ↔
        r ∈ [((5 : ℤ), ([] : List Cell)), (1, []), (3, [])] ∧ r.1 ≤ 2) ∧
      (∀ r, r ∈ va ↔
        r ∈ [((5 : ℤ), ([] : List Cell)), (1, []), (3, [])]
          ∧ 2 < r.1 ∧ r.1 ≤ 4) ∧
      (∀ r, r ∈ te ↔
        r ∈ [((5 : ℤ), ([] : List Cell)), (1, []), (3, [])] ∧ 4 < r.1) :=
  c2_time_split_partition [((5 : ℤ), ([] : List Cell)), (1, []), (3, [])]
    2 4 (by decide)

/-- C8 counterexample: the claim says a time-indexed but unordered input
makes the splitter fail with a type/shape error.  It does not: on the
concrete frame with `DatetimeIndex` `[3, 1]` — a time index that is not
time-ordered — `time_split` returns a split (the data sorted and
sliced), raising nothing. -/
theorem c8_unsorted_index_counterexample :
    (¬ List.Pairwise (fun a b : ℤ => a ≤ b) [3, 1]) ∧
    timeSplit (.dt [((3 : ℤ), ([] : List Cell)), (1, [])]) 1 2
      = .ok ([((1 : ℤ), ([] : List Cell))], [], [((3 : ℤ), [])]) := by
  constructor
  · decide
  · rfl

/-- C8 amended: the splitter raises a type error exactly when the index
is not a `DatetimeIndex`; a time index that is not time-ordered is
accepted — the rows are sorted internally and a split is returned. -/
theorem c8_split_fails_only_on_type (t1 t2 : ℤ) :
    (∀ rows, ∃ tr va te,
      timeSplit (.dt rows) t1 t2 = .ok (tr, va, te)) ∧
    timeSplit .nonDt t1 t2
      = .error "TypeError: index musi byc DatetimeIndex" := by
  constructor
  · intro rows
    exact ⟨_, _, _, rfl⟩
  · rfl

/-- C9 counterexample: the loader never deduplicates dates, so its index
need not be strictly ascending with unique dates, as the claim states:
loading two parseable rows dated the same day yields the index `[5, 5]`,
which is not strictly monotonic. -/
theorem c9_duplicate_dates_counterexample :
    (loadPricesCsv
        [((some 5 : Option ℤ), [some (1 : ℚ)]), (some 5, [some 2])]).map
      Prod.fst = [5, 5] ∧
    ¬ List.Pairwise (fun a b : ℤ => a < b)
      ((loadPricesCsv
          [((some 5 : Option ℤ), [some (1 : ℚ)]), (some 5, [some 2])]).map
        Prod.fst) := by
  constructor
  · rfl
  · rw [show (loadPricesCsv
        [((some 5 : Option ℤ), [some (1 : ℚ)]), (some 5, [some 2])]).map
      Prod.fst = [5, 5] from rfl]
    decide

/-- C9 amended: the loader's index is sorted ascending, possibly with
duplicate dates (strictly ascending whenever the parsed dates are
pairwise distinct); the surviving rows are exactly the rows whose date
parsed, in sorted order, with every non-numeric cell turned into a NaN
marker. -/
theorem c9_loader_amended (raw : List RawRow) :
    List.Pairwise (fun a b : ℤ => a ≤ b)
      ((loadPricesCsv raw).map Prod.fst) ∧
    (loadPricesCsv raw).Perm (raw.filterMap (fun r =>
      r.1.map (fun d => (d, r.2.map (fun o => match o with
        | some q => Cell.val q
        | none => Cell.nan))))) ∧
    (((loadPricesCsv raw).map Prod.fst).Nodup →
      List.Pairwise (fun a b : ℤ => a < b)
        ((loadPricesCsv raw).map Prod.fst)) := by
  have hsorted : List.Pairwise (fun a b : ℤ => a ≤ b)
      ((loadPricesCsv raw).map Prod.fst) := by
    rw [List.pairwise_map]
    unfold loadPricesCsv sortRows
    exact List.sorted_insertionSort (fun a b : ℤ × List Cell => a.1 ≤ b.1) _
  refine ⟨hsorted, List.perm_insertionSort _ _, ?_⟩
  intro hnd
  exact (hsorted.and hnd).imp (fun hab => lt_of_le_of_ne hab.1 hab.2)

theorem c9_loader_amended_witness :
    List.Pairwise (fun a b : ℤ => a ≤ b)
      ((loadPricesCsv
          [((some 7 : Option ℤ), [some (1 : ℚ)]), (none, [some 2]),
           (some 3, [none])]).map Prod.fst) ∧
    (loadPricesCsv
        [((some 7 : Option ℤ), [some (1 : ℚ)]), (none, [some 2]),
         (some 3, [none])]).Perm
      ([((some 7 : Option ℤ), [some (1 : ℚ)]), (none, [some 2]),
        (some 3, [none])].filterMap (fun r =>
        r.1.map (fun d => (d, r.2.map (fun o => match o with
          | some q => Cell.val q
          | none => Cell.nan))))) ∧
    ((((loadPricesCsv
          [((some 7 : Option ℤ), [some (1 : ℚ)]), (none, [some 2]),
           (some 3, [none])]).map Prod.fst).Nodup →
      List.Pairwise (fun a b : ℤ => a < b)
        ((loadPricesCsv
            [((some 7 : Option ℤ), [some (1 : ℚ)]), (none, [some 2]),
             (some 3, [none])]).map Prod.fst))) :=
  c9_loader_amended
    [((some 7 : Option ℤ), [some (1 : ℚ)]), (none, [some 2]),
     (some 3, [none])]

/-! ### Well-formedness of the frames produced by `build_features` -/

theorem mem_zipWith {α β γ : Type} {f : α → β → γ} {l1 : List α}
    {l2 : List β} {c : γ} (hc : c ∈ List.zipWith f l1 l2) :
    ∃ a b, a ∈ l1 ∧ b ∈ l2 ∧ c = f a b := by
  obtain ⟨i, hi, heq⟩ := List.mem_iff_getElem.mp hc
  rw [List.length_zipWith] at hi
  have h1 : i < l1.length := by omega
  have h2 : i < l2.length := by omega
  refine ⟨l1[i], l2[i], List.getElem_mem h1, List.getElem_mem h2, ?_⟩
  rw [← heq, List.getElem_zipWith]

theorem sortRows_mem {r : ℤ × List Cell} {rows : List (ℤ × List Cell)} :
    r ∈ sortRows rows ↔ r ∈ rows :=
  (List.perm_insertionSort _ rows).mem_iff

theorem aggRow_length (n : ℕ) (rows : List (ℤ × List Cell)) :
    (aggRow n rows).length = 3 * n := by
  unfold aggRow
  rw [List.length_flatten, List.map_map]
  have : (List.range n).map
      ((fun l => List.length l) ∘ (fun j =>
        [meanStat (colCells j rows), medianStat (colCells j rows),
         stdStat (colCells j rows)]))
      = (List.range n).map (fun _ => 3) := by
    apply List.map_congr_left
    intro a _
    rfl
  rw [this, List.map_const', List.sum_replicate]
  simp [Nat.mul_comm]

theorem aggNames_length (cols : List String) :
    (aggNames cols).length = 3 * cols.length := by
  unfold aggNames
  rw [List.length_flatten, List.map_map]
  have : cols.map ((fun l => List.length l) ∘ (fun t =>
      [t ++ "_mean", t ++ "_median", t ++ "_std"]))
      = cols.map (fun _ => 3) := by
    apply List.map_congr_left
    intro a _
    rfl
  rw [this, List.map_const', List.sum_replicate]
  simp [Nat.mul_comm]

theorem monthlyTable_val_length (n : ℕ) (rows : List (ℤ × List Cell)) :
    ∀ p ∈ monthlyTable n rows, p.2.length = 3 * n := by
  intro p hp
  unfold monthlyTable at hp
  rcases rows with _ | ⟨r0, rs⟩
  · simp at hp
  · simp only [List.map_cons] at hp
    obtain ⟨i, _, rfl⟩ := List.mem_map.mp hp
    exact aggRow_length n _

theorem shiftMonthly_val_length (w : ℕ) (t : List (ℤ × List Cell))
    (ht : ∀ p ∈ t, p.2.length = w) :
    ∀ p ∈ shiftMonthly w t, p.2.length = w := by
  rintro ⟨k, v⟩ hp
  unfold shiftMonthly at hp
  have hv := (List.of_mem_zip hp).2
  rcases List.mem_cons.mp hv with rfl | hv2
  · simp
  · obtain ⟨p', hp', hpe⟩ := List.mem_map.mp hv2
    show v.length = w
    rw [← hpe]
    exact ht p' hp'

theorem lookup_val_length (w : ℕ) (lag : List (ℤ × List Cell))
    (hl : ∀ p ∈ lag, p.2.length = w) (k : ℤ) :
    ((lag.lookup k).getD (List.replicate w Cell.nan)).length = w := by
  induction lag with
  | nil => simp [List.lookup]
  | cons p ps ih =>
    rcases p with ⟨k', v⟩
    by_cases hk : k == k'
    · simp [List.lookup, hk]
      exact hl ⟨k', v⟩ (by simp)
    · simp only [List.lookup, hk]
      exact ih (fun p' hp' => hl p' (by simp [hp']))

theorem joinMonthly_val_length (n : ℕ) (rows : List (ℤ × List Cell))
    (hr : ∀ r ∈ rows, r.2.length = n) :
    ∀ r ∈ joinMonthly n rows, r.2.length = n + 3 * n := by
  intro r hrm
  unfold joinMonthly at hrm
  obtain ⟨r0, hr0, rfl⟩ := List.mem_map.mp hrm
  simp only [List.length_append, hr r0 hr0]
  rw [lookup_val_length (3 * n) _
    (shiftMonthly_val_length _ _ (monthlyTable_val_length n rows))]

theorem pctRowsAux_length (n : ℕ) (prev : List Cell)
    (rows : List (ℤ × List Cell)) (hp : prev.length = n)
    (hr : ∀ r ∈ rows, r.2.length = n) :
    ∀ r ∈ pctRowsAux prev rows, r.2.length = n := by
  induction rows generalizing prev with
  | nil => intro r hrm; simp [pctRowsAux] at hrm
  | cons x xs ih =>
    intro r hrm
    simp only [pctRowsAux, List.mem_cons] at hrm
    rcases hrm with rfl | hmem
    · simp [List.length_zipWith, hp, hr x (by simp)]
    · exact ih x.2 (hr x (by simp))
        (fun r' h' => hr r' (by simp [h'])) r hmem

theorem pctChange_WF (x : DF) (hx : x.WF) : x.pctChange.WF := by
  intro r hr
  unfold DF.pctChange at hr
  rcases hx0 : x.rows with _ | ⟨r0, rs⟩
  · rw [hx0] at hr
    simp at hr
  · rw [hx0] at hr
    simp only [List.mem_cons] at hr
    show r.2.length = x.cols.length
    rcases hr with rfl | hmem
    · simp [hx r0 (by rw [hx0]; simp)]
    · exact pctRowsAux_length x.cols.length r0.2 rs
        (hx r0 (by rw [hx0]; simp))
        (fun r' h' => hx r' (by rw [hx0]; simp [h'])) r hmem

theorem buildFeatures_WF (df : DF) (im cr : Bool) (lo hi : ℚ)
    (hwf : df.WF) : (buildFeatures df im cr lo hi).WF := by
  have h1 : df.sortIndex.WF := fun r hr => hwf r (sortRows_mem.mp hr)
  have h2 : (addRetPref df.sortIndex.pctChange).WF := by
    intro r hr
    have := pctChange_WF df.sortIndex h1 r hr
    simpa [addRetPref] using this
  have hout : ∀ out : DF, out.WF →
      (dropna (replaceInfDF (concatH out (addRetPref
        df.sortIndex.pctChange)))).WF := by
    intro out hOut r hr
    simp only [dropna, replaceInfDF, concatH] at hr ⊢
    obtain ⟨hmem2, _⟩ := List.mem_filter.mp hr
    obtain ⟨r1, hr1, rfl⟩ := List.mem_map.mp hmem2
    obtain ⟨ra, rb, hra, hrb, rfl⟩ := mem_zipWith hr1
    have hlb := h2 rb hrb
    simp only [addRetPref, List.length_map] at hlb
    simp [hOut ra hra, hlb, addRetPref]
  have hclip : ∀ x : DF, x.WF → (clipDF lo hi x).WF := by
    intro x hX r hr
    simp only [clipDF] at hr ⊢
    obtain ⟨r0, hr0, rfl⟩ := List.mem_map.mp hr
    simp [List.length_zipWith, hX r0 hr0]
  have hmon : (DF.mk (df.sortIndex.cols ++ aggNames df.sortIndex.cols)
      (joinMonthly df.sortIndex.cols.length df.sortIndex.rows)).WF := by
    intro r hr
    have := joinMonthly_val_length df.sortIndex.cols.length
      df.sortIndex.rows h1 r hr
    simp only [this, List.length_append, aggNames_length]
  cases im <;> cases cr <;>
    simp only [buildFeatures, if_true, if_false, Bool.false_eq_true,
      ite_true, ite_false]
  · exact hout df.sortIndex h1
  · exact hclip _ (hout df.sortIndex h1)
  · exact hout _ hmon
  · exact hclip _ (hout _ hmon)

/-! ### Every surviving cell is a finite value -/

theorem replaceInfCell_nan_or_val (c : Cell) :
    (replaceInfCell c).isNan = true ∨ (replaceInfCell c).isVal = true := by
  cases c <;> simp [replaceInfCell, Cell.isNan, Cell.isVal]

theorem dropna_replaceInf_allVal (x : DF) :
    ∀ r ∈ (dropna (replaceInfDF x)).rows, ∀ c ∈ r.2, c.isVal = true := by
  intro r hr c hc
  simp only [dropna, replaceInfDF] at hr
  obtain ⟨hmem, hall⟩ := List.mem_filter.mp hr
  obtain ⟨r0, hr0, rfl⟩ := List.mem_map.mp hmem
  simp only at hc
  have hnn := List.all_eq_true.mp hall c hc
  obtain ⟨c0, hc0, rfl⟩ := List.mem_map.mp hc
  rcases replaceInfCell_nan_or_val c0 with hcase | hcase
  · rw [hcase] at hnn
    simp at hnn
  · exact hcase

theorem clipCell_isVal (lo hi : ℚ) (c : Cell) (h : c.isVal = true) :
    (clipCell lo hi c).isVal = true := by
  cases c <;> simp_all [clipCell, Cell.isVal]

theorem clipDF_allVal (lo hi : ℚ) (x : DF)
    (hx : ∀ r ∈ x.rows, ∀ c ∈ r.2, c.isVal = true) :
    ∀ r ∈ (clipDF lo hi x).rows, ∀ c ∈ r.2, c.isVal = true := by
  intro r hr c hc
  simp only [clipDF] at hr
  obtain ⟨r0, hr0, rfl⟩ := List.mem_map.mp hr
  simp only at hc
  obtain ⟨cn, c0, _, hc0, rfl⟩ := mem_zipWith hc
  split
  · exact clipCell_isVal _ _ _ (hx r0 hr0 c0 hc0)
  · exact hx r0 hr0 c0 hc0

theorem buildFeatures_allVal (df : DF) (im cr : Bool) (lo hi : ℚ) :
    ∀ r ∈ (buildFeatures df im cr lo hi).rows, ∀ c ∈ r.2,
      c.isVal = true := by
  cases cr <;>
    simp only [buildFeatures, if_true, if_false, Bool.false_eq_true,
      ite_true, ite_false]
  · exact dropna_replaceInf_allVal _
  · exact clipDF_allVal _ _ _ (dropna_replaceInf_allVal _)

theorem replaceInfDF_id (Y : DF)
    (hY : ∀ r ∈ Y.rows, ∀ c ∈ r.2, c.isVal = true) :
    replaceInfDF Y = Y := by
  unfold replaceInfDF
  rcases Y with ⟨cols, rows⟩
  simp only [DF.mk.injEq, true_and]
  have : rows.map (fun r => (r.1, r.2.map replaceInfCell))
      = rows.map id := by
    apply List.map_congr_left
    intro r hr
    have hcells : r.2.map replaceInfCell = r.2.map id := by
      apply List.map_congr_left
      intro c hc
      have := hY r hr c hc
      cases c <;> simp_all [replaceInfCell, Cell.isVal]
    rw [hcells, List.map_id, id]
  rw [this, List.map_id]

theorem dropna_id (Y : DF)
    (hY : ∀ r ∈ Y.rows, ∀ c ∈ r.2, c.isVal = true) : dropna Y = Y := by
  unfold dropna
  rcases Y with ⟨cols, rows⟩
  simp only [DF.mk.injEq, true_and]
  apply List.filter_eq_self.mpr
  intro r hr
  apply List.all_eq_true.mpr
  intro c hc
  have := hY r hr c hc
  cases c <;> simp_all [Cell.isNan, Cell.isVal]

theorem ilocToNeg_subset {α : Type} (h : ℕ) (xs : List α) {a : α}
    (ha : a ∈ ilocToNeg h xs) : a ∈ xs := by
  unfold ilocToNeg at ha
  split at ha
  · simp at ha
  · exact List.take_subset _ _ ha

theorem cellAt_mem (cols : List String) (cs : List Cell) (c : String)
    (hmem : c ∈ cols) (hlen : cs.length = cols.length) :
    cellAt cols cs c ∈ cs := by
  unfold cellAt
  have hidx : List.indexOf c cols < cols.length :=
    List.indexOf_lt_length.mpr hmem
  rw [List.getD_eq_getElem _ _ (by omega)]
  exact List.getElem_mem _

/-- C5: for every well-formed input price table and every configuration
of the monthly/clip flags, the feature matrix returned by
`build_features` contains no missing and no infinite values — every cell
is a finite number; re-cleaning it (the `replace + dropna` that `main`
performs) is the identity, so the missing-value drop precedes clipping
and clipping never creates a new missing value requiring a second drop
pass; and the per-(target, horizon) supervised dataset built from it by
`make_xy` likewise contains no missing and no infinite values. -/
theorem c5_no_missing_values (df : DF) (im cr : Bool) (lo hi : ℚ)
    (target : String) (h : ℕ) (hwf : df.WF) (hh : 1 ≤ h)
    (hmem : ("ret_" ++ target) ∈ (buildFeatures df im cr lo hi).cols) :
    (∀ r ∈ (buildFeatures df im cr lo hi).rows, ∀ c ∈ r.2,
      c.isVal = true) ∧
    dropna (replaceInfDF (buildFeatures df im cr lo hi))
      = buildFeatures df im cr lo hi ∧
    (∃ X y fcols,
      makeXY (buildFeatures df im cr lo hi) target h = .ok (X, y, fcols) ∧
      (∀ r ∈ X.rows, ∀ c ∈ r.2, c.isVal = true) ∧
      (∀ p ∈ y, p.2.isVal = true)) := by
  set bf := buildFeatures df im cr lo hi with hbf
  have hav : ∀ r ∈ bf.rows, ∀ c ∈ r.2, c.isVal = true :=
    buildFeatures_allVal df im cr lo hi
  have hbwf : bf.WF := buildFeatures_WF df im cr lo hi hwf
  refine ⟨hav, ?_, ?_⟩
  · rw [replaceInfDF_id bf hav, dropna_id bf hav]
  · refine ⟨_, _, _, makeXY_ok bf target h hmem, ?_, ?_⟩
    · intro r hr c hc
      simp only [ilocNegDF] at hr
      have hr' := ilocToNeg_subset h _ hr
      simp only [selectCols] at hr'
      obtain ⟨r0, hr0, rfl⟩ := List.mem_map.mp hr'
      simp only at hc
      obtain ⟨cn, hcn, rfl⟩ := List.mem_map.mp hc
      have hcnm : cn ∈ bf.cols := List.mem_of_mem_filter hcn
      exact hav r0 hr0 _ (cellAt_mem bf.cols r0.2 cn hcnm (hbwf r0 hr0))
    · intro p hp
      have hsnd : p.2 ∈ (ilocToNeg h (shiftNeg h
          (colSeries bf ("ret_" ++ target)))).map Prod.snd :=
        List.mem_map_of_mem Prod.snd hp
      rw [makeXY_y_vals bf target h hh] at hsnd
      have hsnd' := List.drop_subset h _ hsnd
      obtain ⟨r0, hr0, heq⟩ := List.mem_map.mp hsnd'
      rw [← heq]
      simp only [colSeries] at hr0
      obtain ⟨r1, hr1, rfl⟩ := List.mem_map.mp hr0
      exact hav r1 hr1 _
        (cellAt_mem bf.cols r1.2 _ hmem (hbwf r1 hr1))

/-- A small concrete price table for the C5 witness. -/
def exPrices : DF :=
  ⟨["A", "B"],
   [((0 : ℤ), [Cell.val 1, Cell.val 2]),
    (1, [Cell.val 2, Cell.val 4]),
    (2, [Cell.val 4, Cell.val 2])]⟩

/-- A price table spanning two calendar months (day 31 is 1970-02-01),
so that the monthly join produces a surviving row. -/
def exPricesM : DF :=
  ⟨["A", "B"],
   [((0 : ℤ), [Cell.val 1, Cell.val 2]),
    (1, [Cell.val 2, Cell.val 4]),
    (31, [Cell.val 4, Cell.val 2])]⟩

theorem c5_no_missing_values_witness :
    (∀ r ∈ (buildFeatures exPrices false true (-1/5) (1/5)).rows,
      ∀ c ∈ r.2, c.isVal = true) ∧
    dropna (replaceInfDF (buildFeatures exPrices false true (-1/5) (1/5)))
      = buildFeatures exPrices false true (-1/5) (1/5) ∧
    (∃ X y fcols,
      makeXY (buildFeatures exPrices false true (-1/5) (1/5)) "A" 1
        = .ok (X, y, fcols) ∧
      (∀ r ∈ X.rows, ∀ c ∈ r.2, c.isVal = true) ∧
      (∀ p ∈ y, p.2.isVal = true)) :=
  c5_no_missing_values exPrices false true (-1/5) (1/5) "A" 1
    (by intro r hr; fin_cases hr <;> rfl) (by decide) (by decide)

/-! ### The lag-1 monthly join resolves to the previous month's rows -/

theorem foldr_min_le (m : ℤ) (ms : List ℤ) :
    ∀ x ∈ m :: ms, List.foldr min m ms ≤ x := by
  induction ms generalizing m with
  | nil =>
    intro x hx
    simp only [List.mem_singleton] at hx
    simp [hx]
  | cons a as ih =>
    intro x hx
    simp only [List.foldr_cons]
    rcases List.mem_cons.mp hx with rfl | hx2
    · exact le_trans (min_le_right _ _) (ih x x (by simp))
    · rcases List.mem_cons.mp hx2 with rfl | hx3
      · exact min_le_left _ _
      · exact le_trans (min_le_right _ _) (ih m x (by simp [hx3]))

theorem foldr_le_max (m : ℤ) (ms : List ℤ) :
    ∀ x ∈ m :: ms, x ≤ List.foldr max m ms := by
  induction ms generalizing m with
  | nil =>
    intro x hx
    simp only [List.mem_singleton] at hx
    simp [hx]
  | cons a as ih =>
    intro x hx
    simp only [List.foldr_cons]
    rcases List.mem_cons.mp hx with rfl | hx2
    · exact le_trans (ih x x (by simp)) (le_max_right _ _)
    · rcases List.mem_cons.mp hx2 with rfl | hx3
      · exact le_max_left _ _
      · exact le_trans (ih m x (by simp [hx3])) (le_max_right _ _)

theorem lookup_consec (g : ℤ → List Cell) (N : ℕ) :
    ∀ (lo k : ℤ), lo ≤ k → k < lo + N →
      (((List.range N).map
        (fun (i : ℕ) => (lo + (i : ℤ), g (lo + (i : ℤ))))).lookup k)
        = some (g k) := by
  induction N with
  | zero =>
    intro lo k h1 h2
    exact absurd h2 (by omega)
  | succ n ih =>
    intro lo k h1 h2
    rw [List.range_succ_eq_map]
    rw [List.map_cons, List.map_map]
    have h00 : (lo + ((0 : ℕ) : ℤ), g (lo + ((0 : ℕ) : ℤ))) = (lo, g lo) := by
      norm_num
    have hmaps : (List.range n).map
        ((fun (i : ℕ) => (lo + (i : ℤ), g (lo + (i : ℤ)))) ∘ Nat.succ)
        = (List.range n).map
          (fun (i : ℕ) => ((lo + 1) + (i : ℤ), g ((lo + 1) + (i : ℤ)))) := by
      apply List.map_congr_left
      intro i _
      simp only [Function.comp]
      have : lo + ((i.succ : ℕ) : ℤ) = (lo + 1) + (i : ℤ) := by
        push_cast
        ring
      rw [this]
    rw [h00, hmaps]
    by_cases hk : k = lo
    · subst hk
      simp [List.lookup]
    · have hne : (k == lo) = false := by
        simp [hk]
      simp only [List.lookup, hne]
      exact ih (lo + 1) k (by omega) (by omega)

theorem replaceInf_meanStat (cs : List Cell) :
    replaceInfCell (meanStat cs) = meanStat cs := by
  unfold meanStat
  by_cases hl : (finiteVals cs).length = 0
  · simp [hl, replaceInfCell]
  · simp [hl, replaceInfCell]

theorem replaceInf_medianStat (cs : List Cell) :
    replaceInfCell (medianStat cs) = medianStat cs := by
  unfold medianStat
  by_cases h0 : finiteVals cs = []
  · simp [h0, replaceInfCell]
  · by_cases h1 : (finiteVals cs).length % 2 = 1
    · simp [h0, h1, replaceInfCell]
    · simp [h0, h1, replaceInfCell]

theorem replaceInf_stdStat (cs : List Cell) :
    replaceInfCell (stdStat cs) = stdStat cs := by
  unfold stdStat
  by_cases hl : (finiteVals cs).length < 2
  · simp [hl, replaceInfCell]
  · simp [hl, replaceInfCell]

theorem aggRow_replaceInf_id (n : ℕ) (rows : List (ℤ × List Cell)) :
    (aggRow n rows).map replaceInfCell = aggRow n rows := by
  have : ∀ c ∈ aggRow n rows, replaceInfCell c = c := by
    intro c hc
    unfold aggRow at hc
    rw [List.mem_flatten] at hc
    obtain ⟨l, hl, hcl⟩ := hc
    obtain ⟨j, _, rfl⟩ := List.mem_map.mp hl
    simp only [List.mem_cons, List.not_mem_nil, or_false] at hcl
    rcases hcl with rfl | rfl | rfl
    · exact replaceInf_meanStat _
    · exact replaceInf_medianStat _
    · exact replaceInf_stdStat _
  calc (aggRow n rows).map replaceInfCell
      = (aggRow n rows).map id := List.map_congr_left this
    _ = aggRow n rows := List.map_id _

theorem aggRow_nil (n : ℕ) :
    aggRow n [] = List.replicate (3 * n) Cell.nan := by
  unfold aggRow
  have hstats : ∀ j : ℕ,
      [meanStat (colCells j []), medianStat (colCells j []),
       stdStat (colCells j [])] = List.replicate 3 Cell.nan := by
    intro j
    rfl
  induction n with
  | zero => rfl
  | succ k ihk =>
    rw [List.range_succ, List.map_append, List.flatten_append]
    rw [ihk]
    simp only [List.map_cons, List.map_nil, List.flatten_cons,
      List.flatten_nil, List.append_nil, hstats]
    rw [show 3 * (k + 1) = 3 * k + 3 from by ring, List.replicate_add]

theorem filter_prev_min_empty (lo : ℤ) (rows : List (ℤ × List Cell))
    (hlo : ∀ x ∈ rows, lo ≤ ymOf x.1) :
    rows.filter (fun x => ymOf x.1 == lo - 1) = [] := by
  rw [List.filter_eq_nil_iff]
  intro x hx
  have := hlo x hx
  simp only [beq_iff_eq]
  omega

theorem shiftMonthly_lookup (n : ℕ) (rows : List (ℤ × List Cell))
    (lo : ℤ) (N : ℕ) (k : ℤ)
    (hlo : ∀ x ∈ rows, lo ≤ ymOf x.1)
    (hk1 : lo ≤ k) (hk2 : k < lo + N) :
    (((shiftMonthly (3 * n) ((List.range N).map
        (fun (i : ℕ) => (lo + (i : ℤ),
          aggRow n (rows.filter
            (fun x => ymOf x.1 == lo + (i : ℤ))))))).lookup k).getD
      (List.replicate (3 * n) Cell.nan))
      = aggRow n (rows.filter (fun x => ymOf x.1 == k - 1)) := by
  have hshift : shiftMonthly (3 * n) ((List.range N).map
      (fun (i : ℕ) => (lo + (i : ℤ),
        aggRow n (rows.filter (fun x => ymOf x.1 == lo + (i : ℤ))))))
      = (List.range N).map
        (fun (i : ℕ) => (lo + (i : ℤ), lagVal n rows lo (lo + (i : ℤ)))) := by
    apply List.ext_getElem
    · simp only [shiftMonthly, List.length_zip, List.length_map,
        List.length_range, List.length_cons]
      omega
    · intro i hi1 hi2
      simp only [shiftMonthly, List.map_map] at hi1 ⊢
      cases i with
      | zero =>
        simp only [List.getElem_zip, List.getElem_map, List.getElem_range,
          List.getElem_cons_zero, Function.comp_apply]
        have hz : lagVal n rows lo (lo + ((0 : ℕ) : ℤ))
            = List.replicate (3 * n) Cell.nan := by
          unfold lagVal
          norm_num
        rw [hz]
      | succ j =>
        simp only [List.getElem_zip, List.getElem_map, List.getElem_range,
          List.getElem_cons_succ, Function.comp_apply]
        have harith : lagVal n rows lo (lo + ((j + 1 : ℕ) : ℤ))
            = aggRow n (rows.filter
              (fun x => ymOf x.1 == lo + (j : ℤ))) := by
          unfold lagVal
          rw [if_neg (by push_cast; omega)]
          have hc : lo + ((j + 1 : ℕ) : ℤ) - 1 = lo + (j : ℤ) := by
            push_cast
            ring
          rw [hc]
        rw [harith]
  rw [hshift, lookup_consec (lagVal n rows lo) N lo k hk1 hk2,
    Option.getD_some]
  unfold lagVal
  by_cases hkl : k = lo
  · rw [if_pos hkl, hkl]
    rw [filter_prev_min_empty lo rows hlo, aggRow_nil]
  · rw [if_neg hkl]

/-- The monthly join, fully characterised: every daily row receives
exactly the aggregate statistics of the rows of the previous calendar
month. -/
theorem joinMonthly_eq (n : ℕ) (rows : List (ℤ × List Cell)) :
    joinMonthly n rows = rows.map (fun r =>
      (r.1, r.2 ++ aggRow n (rows.filter
        (fun x => ymOf x.1 == ymOf r.1 - 1)))) := by
  cases rows with
  | nil => simp [joinMonthly]
  | cons r0 rs =>
    unfold joinMonthly
    apply List.map_congr_left
    intro r hr
    simp only [Prod.mk.injEq, true_and]
    congr 1
    have htbl : monthlyTable n (r0 :: rs)
        = (List.range (((rs.map (fun x => ymOf x.1)).foldr max (ymOf r0.1)
            - (rs.map (fun x => ymOf x.1)).foldr min (ymOf r0.1)
            + 1).toNat)).map
          (fun (i : ℕ) =>
            ((rs.map (fun x => ymOf x.1)).foldr min (ymOf r0.1) + (i : ℤ),
             aggRow n ((r0 :: rs).filter
               (fun x => ymOf x.1
                 == (rs.map (fun x => ymOf x.1)).foldr min (ymOf r0.1)
                   + (i : ℤ))))) := by
      simp only [monthlyTable, List.map_cons]
    rw [htbl]
    have hlo : ∀ x ∈ r0 :: rs,
        (rs.map (fun x => ymOf x.1)).foldr min (ymOf r0.1) ≤ ymOf x.1 := by
      intro x hx
      have h1 : ymOf x.1 ∈ (r0 :: rs).map (fun x => ymOf x.1) :=
        List.mem_map_of_mem _ hx
      rw [List.map_cons] at h1
      exact foldr_min_le _ _ _ h1
    have hhi : ∀ x ∈ r0 :: rs,
        ymOf x.1 ≤ (rs.map (fun x => ymOf x.1)).foldr max (ymOf r0.1) := by
      intro x hx
      have h1 : ymOf x.1 ∈ (r0 :: rs).map (fun x => ymOf x.1) :=
        List.mem_map_of_mem _ hx
      rw [List.map_cons] at h1
      exact foldr_le_max _ _ _ h1
    have hle : (rs.map (fun x => ymOf x.1)).foldr min (ymOf r0.1)
        ≤ (rs.map (fun x => ymOf x.1)).foldr max (ymOf r0.1) :=
      le_trans (hlo r0 (by simp)) (hhi r0 (by simp))
    apply shiftMonthly_lookup n (r0 :: rs) _ _ (ymOf r.1) hlo
      (hlo r hr)
    have hcast : ((((rs.map (fun x => ymOf x.1)).foldr max (ymOf r0.1)
        - (rs.map (fun x => ymOf x.1)).foldr min (ymOf r0.1)
        + 1).toNat : ℕ) : ℤ)
        = (rs.map (fun x => ymOf x.1)).foldr max (ymOf r0.1)
          - (rs.map (fun x => ymOf x.1)).foldr min (ymOf r0.1) + 1 :=
      Int.toNat_of_nonneg (by omega)
    have := hhi r hr
    omega

theorem segment_of_struct (n : ℕ) (A agg C : List Cell)
    (hA : A.length = n) (hagg : agg.length = 3 * n) :
    ((A ++ agg ++ C).drop n).take (3 * n) = agg := by
  rw [List.append_assoc, List.drop_left' hA, List.take_left' hagg]

theorem zipWith_clip_skip (lo hi : ℚ) (B : List String) (b : List Cell)
    (hB : ∀ c ∈ B, startsWithRet c = false) (hlen : B.length = b.length) :
    List.zipWith (fun c x => if startsWithRet c then clipCell lo hi x else x)
      B b = b := by
  induction B generalizing b with
  | nil =>
    cases b with
    | nil => rfl
    | cons x xs => simp at hlen
  | cons c cs ih =>
    cases b with
    | nil => simp at hlen
    | cons x xs =>
      simp only [List.zipWith_cons_cons, hB c (by simp),
        Bool.false_eq_true, if_false]
      rw [ih xs (fun c' hc' => hB c' (by simp [hc'])) (by simpa using hlen)]

/-- C3: with `include_monthly` enabled, the monthly aggregate block
attached to any output row of `build_features` dated in calendar month
`M` is exactly the aggregate statistics of the (sorted) input rows of
month `M - 1` — a function of rows that all lie in months strictly
earlier than `M`.  The hypothesis `hna` rules out degenerate price
column names whose derived monthly labels would collide with the
`ret_*` namespace that clipping rewrites (real tickers never do). -/
theorem c3_monthly_no_lookahead (df : DF) (cr : Bool) (lo hi : ℚ)
    (hwf : df.WF)
    (hna : ∀ c ∈ aggNames df.cols, startsWithRet c = false) :
    ∀ r ∈ (buildFeatures df true cr lo hi).rows,
      ((r.2.drop df.cols.length).take (3 * df.cols.length)
          = aggRow df.cols.length
              ((sortRows df.rows).filter
                (fun x => ymOf x.1 == ymOf r.1 - 1))) ∧
      (∀ x ∈ (sortRows df.rows).filter
          (fun x => ymOf x.1 == ymOf r.1 - 1), ymOf x.1 < ymOf r.1) := by
  have hsortWF : ∀ r ∈ sortRows df.rows, r.2.length = df.cols.length :=
    fun r hr => hwf r (sortRows_mem.mp hr)
  have hretsWF : (addRetPref df.sortIndex.pctChange).WF := by
    intro r hr
    have := pctChange_WF df.sortIndex
      (fun r hr => hwf r (sortRows_mem.mp hr)) r hr
    simpa [addRetPref] using this
  have hprev : ∀ d : ℤ, ∀ x ∈ (sortRows df.rows).filter
      (fun x => ymOf x.1 == ymOf d - 1), ymOf x.1 < ymOf d := by
    intro d x hx
    have hf := List.mem_filter.mp hx
    have := hf.2
    simp only [beq_iff_eq] at this
    omega
  have hstruct : ∀ r ∈ (dropna (replaceInfDF (concatH
      ⟨df.sortIndex.cols ++ aggNames df.sortIndex.cols,
       joinMonthly df.sortIndex.cols.length df.sortIndex.rows⟩
      (addRetPref df.sortIndex.pctChange)))).rows,
      ∃ A C, r.2 = A ++ aggRow df.cols.length
          ((sortRows df.rows).filter
            (fun x => ymOf x.1 == ymOf r.1 - 1)) ++ C
        ∧ A.length = df.cols.length ∧ C.length = df.cols.length := by
    intro r hr
    simp only [dropna, replaceInfDF] at hr
    obtain ⟨hmem2, _⟩ := List.mem_filter.mp hr
    obtain ⟨r1, hr1, rfl⟩ := List.mem_map.mp hmem2
    simp only [concatH] at hr1
    obtain ⟨ra, rb, hra, hrb, rfl⟩ := mem_zipWith hr1
    have hjm : ra ∈ (sortRows df.rows).map (fun r0 =>
        (r0.1, r0.2 ++ aggRow df.cols.length ((sortRows df.rows).filter
          (fun x => ymOf x.1 == ymOf r0.1 - 1)))) := by
      rw [← joinMonthly_eq]
      exact hra
    obtain ⟨r0, hr0, rfl⟩ := List.mem_map.mp hjm
    refine ⟨r0.2.map replaceInfCell, rb.2.map replaceInfCell, ?_, ?_, ?_⟩
    · show ((r0.2 ++ aggRow _ _) ++ rb.2).map replaceInfCell = _
      rw [List.map_append, List.map_append, aggRow_replaceInf_id]
    · simp [hsortWF r0 hr0]
    · have := hretsWF rb hrb
      simp only [addRetPref, List.length_map] at this
      simp [this]
      rfl
  cases cr with
  | false =>
    intro r hr
    simp only [buildFeatures, if_true, Bool.false_eq_true, if_false] at hr
    obtain ⟨A, C, hAC, hA, hC⟩ := hstruct r hr
    refine ⟨?_, hprev r.1⟩
    rw [hAC]
    exact segment_of_struct df.cols.length A _ C hA (aggRow_length _ _)
  | true =>
    intro r hr
    simp only [buildFeatures, if_true, Bool.false_eq_true, if_false,
      clipDF] at hr
    obtain ⟨r1, hr1, rfl⟩ := List.mem_map.mp hr
    obtain ⟨A, C, hAC, hA, hC⟩ := hstruct r1 hr1
    refine ⟨?_, hprev r1.1⟩
    show ((List.zipWith _ _ r1.2).drop df.cols.length).take _ = _
    rw [hAC]
    have hcols : (dropna (replaceInfDF (concatH
        ⟨df.sortIndex.cols ++ aggNames df.sortIndex.cols,
         joinMonthly df.sortIndex.cols.length df.sortIndex.rows⟩
        (addRetPref df.sortIndex.pctChange)))).cols
        = (df.cols ++ aggNames df.cols)
          ++ df.cols.map (fun c => "ret_" ++ c) := rfl
    rw [hcols]
    rw [List.zipWith_append _ _ _ _ _
      (by simp [hA, aggRow_length, aggNames_length])]
    rw [List.zipWith_append _ _ _ _ _ (by simp [hA])]
    rw [zipWith_clip_skip lo hi (aggNames df.cols) _ hna
      (by simp [aggNames_length, aggRow_length])]
    exact segment_of_struct df.cols.length _ _ _
      (by simp [List.length_zipWith, hA])
      (aggRow_length _ _)

theorem getD_zero_mem {α : Type} {l : List α} (h : l ≠ []) (d : α) :
    l.getD 0 d ∈ l := by
  cases l with
  | nil => exact absurd rfl h
  | cons a as => simp [List.getD]

theorem c3_monthly_no_lookahead_witness :
    ((((buildFeatures exPricesM true true (-1/5) (1/5)).rows.getD 0
        ((0 : ℤ), [])).2.drop exPricesM.cols.length).take
      (3 * exPricesM.cols.length))
      = aggRow exPricesM.cols.length
          ((sortRows exPricesM.rows).filter
            (fun x => ymOf x.1
              == ymOf ((buildFeatures exPricesM true true
                (-1/5) (1/5)).rows.getD 0 ((0 : ℤ), [])).1 - 1)) :=
  (c3_monthly_no_lookahead exPricesM true (-1/5) (1/5)
    (by intro r hr; fin_cases hr <;> rfl) (by decide) _
    (getD_zero_mem (by decide) _)).1

/-! ### The per-pair loop: skip policy and latest forecast -/

theorem assertNoNan_dropna (x : DF) : assertNoNan (dropna x) = .ok () := by
  unfold assertNoNan
  rw [if_pos]
  apply List.sum_eq_zero
  intro m hm
  obtain ⟨r, hr, rfl⟩ := List.mem_map.mp hm
  simp only [dropna] at hr
  obtain ⟨_, hall⟩ := List.mem_filter.mp hr
  have hnil : r.2.filter Cell.isNan = [] := by
    rw [List.filter_eq_nil_iff]
    intro c hc
    have := List.all_eq_true.mp hall c hc
    simp_all
  rw [hnil]
  rfl

/-- C6: whenever the train, validation or test split of a
`(target, horizon)` pair has fewer than `min_samples` rows, the loop
body returns normally with a `skipped` outcome — it emits no artifacts,
raises nothing, and the loop proceeds to the next pair. -/
theorem c6_skip_policy (predict : List Cell → ℚ) (features : DF)
    (target : String) (h : ℕ) (t1 t2 : ℤ) (minS : ℕ)
    (hmem : ("ret_" ++ target) ∈ features.cols)
    (hsmall :
      (splitSlices (pairDataOf features target h).rows t1 t2).1.length
          < minS ∨
      (splitSlices (pairDataOf features target h).rows t1 t2).2.1.length
          < minS ∨
      (splitSlices (pairDataOf features target h).rows t1 t2).2.2.length
          < minS) :
    processPair predict features target h t1 t2 minS
      = .ok (.skipped
          (splitSlices (pairDataOf features target h).rows t1 t2).1.length
          (splitSlices (pairDataOf features target h).rows t1 t2).2.1.length
          (splitSlices (pairDataOf features target h).rows t1 t2).2.2.length)
    := by
  unfold processPair
  rw [makeXY_ok features target h hmem]
  simp only [assertNoNan_dropna]
  show (if (splitSlices (pairDataOf features target h).rows t1 t2).1.length
          < minS ∨
      (splitSlices (pairDataOf features target h).rows t1 t2).2.1.length
          < minS ∨
      (splitSlices (pairDataOf features target h).rows t1 t2).2.2.length
          < minS then
    pure (PairOutcome.skipped
      (splitSlices (pairDataOf features target h).rows t1 t2).1.length
      (splitSlices (pairDataOf features target h).rows t1 t2).2.1.length
      (splitSlices (pairDataOf features target h).rows t1 t2).2.2.length)
  else
    publishPhase predict features
      (ilocNegDF h (selectCols features
        (features.cols.filter
          (fun c => startsWithRet c && c != ("ret_" ++ target)))))
      (pairDataOf features target h)
      (features.cols.filter
        (fun c => startsWithRet c && c != ("ret_" ++ target)))
      h
      (splitSlices (pairDataOf features target h).rows t1 t2).2.2) = _
  rw [if_pos hsmall]
  rfl

theorem c6_skip_policy_witness :
    processPair (fun _ => (0 : ℚ)) exDF "A" 1 0 1 5
      = .ok (.skipped
          (splitSlices (pairDataOf exDF "A" 1).rows 0 1).1.length
          (splitSlices (pairDataOf exDF "A" 1).rows 0 1).2.1.length
          (splitSlices (pairDataOf exDF "A" 1).rows 0 1).2.2.length) :=
  c6_skip_policy (fun _ => (0 : ℚ)) exDF "A" 1 0 1 5 (by decide)
    (by decide)

/-- C7: for a non-skipped pair, the latest-forecast artifact is exactly
one row; its prediction applies the model to the last row of the full,
unsplit `X` of the pair, its `forecast_for_date` is the asof date
(`features_df.index.max()`) advanced by `h` business days
(weekend-aware), and its sign indicator is `1` exactly when the
predicted value is strictly positive, else `0`. -/
theorem c7_latest_forecast (predict : List Cell → ℚ) (features : DF)
    (target : String) (h : ℕ) (t1 t2 : ℤ) (minS : ℕ)
    (hmem : ("ret_" ++ target) ∈ features.cols)
    (hminS : 1 ≤ minS)
    (hns : ¬ ((splitSlices (pairDataOf features target h).rows t1 t2).1.length
          < minS ∨
      (splitSlices (pairDataOf features target h).rows t1 t2).2.1.length
          < minS ∨
      (splitSlices (pairDataOf features target h).rows t1 t2).2.2.length
          < minS)) :
    ∃ testPreds xlast,
      (ilocNegDF h (selectCols features
        (features.cols.filter
          (fun c => startsWithRet c && c != ("ret_" ++ target))))).rows.getLast?
        = some xlast ∧
      processPair predict features target h t1 t2 minS
        = .ok (.published testPreds
            { asofDate := indexMax features,
              forecastForDate := addBDays (indexMax features) h,
              horizonDays := h,
              predRetNext := predict xlast.2,
              predSign := if 0 < predict xlast.2 then 1 else 0 }) := by
  have hne : (ilocNegDF h (selectCols features
      (features.cols.filter
        (fun c => startsWithRet c && c != ("ret_" ++ target))))).rows
      ≠ [] := by
    intro hempty
    apply hns
    left
    have hlen0 : (pairDataOf features target h).rows = [] := by
      simp only [pairDataOf, joinXY, hempty, List.zipWith_nil_left, dropna,
        replaceInfDF, List.map_nil, List.filter_nil]
    rw [show (splitSlices (pairDataOf features target h).rows t1 t2).1.length
        = 0 from by rw [hlen0]; rfl]
    omega
  obtain ⟨xlast, hlast⟩ :=
    Option.isSome_iff_exists.mp (List.getLast?_isSome.mpr hne)
  refine ⟨((splitSlices (pairDataOf features target h).rows t1 t2).2.2).map
      (fun r =>
        { asofDate := r.1,
          yTrue := cellAt (pairDataOf features target h).cols r.2 "y",
          yPred := predict ((features.cols.filter
            (fun c => startsWithRet c && c != ("ret_" ++ target))).map
              (cellAt (pairDataOf features target h).cols r.2)) }),
    xlast, hlast, ?_⟩
  unfold processPair
  rw [makeXY_ok features target h hmem]
  simp only [assertNoNan_dropna]
  show (if (splitSlices (pairDataOf features target h).rows t1 t2).1.length
          < minS ∨
      (splitSlices (pairDataOf features target h).rows t1 t2).2.1.length
          < minS ∨
      (splitSlices (pairDataOf features target h).rows t1 t2).2.2.length
          < minS then
    pure (PairOutcome.skipped
      (splitSlices (pairDataOf features target h).rows t1 t2).1.length
      (splitSlices (pairDataOf features target h).rows t1 t2).2.1.length
      (splitSlices (pairDataOf features target h).rows t1 t2).2.2.length)
  else
    publishPhase predict features
      (ilocNegDF h (selectCols features
        (features.cols.filter
          (fun c => startsWithRet c && c != ("ret_" ++ target)))))
      (pairDataOf features target h)
      (features.cols.filter
        (fun c => startsWithRet c && c != ("ret_" ++ target)))
      h
      (splitSlices (pairDataOf features target h).rows t1 t2).2.2) = _
  rw [if_neg hns]
  unfold publishPhase
  rw [hlast]
  rfl

theorem c7_latest_forecast_witness :
    ∃ testPreds xlast,
      (ilocNegDF 1 (selectCols exDF4
        (exDF4.cols.filter
          (fun c => startsWithRet c && c != ("ret_" ++ "A"))))).rows.getLast?
        = some xlast ∧
      processPair (fun _ => (1 : ℚ)) exDF4 "A" 1 0 1 1
        = .ok (.published testPreds
            { asofDate := indexMax exDF4,
              forecastForDate := addBDays (indexMax exDF4) 1,
              horizonDays := 1,
              predRetNext := (fun _ => (1 : ℚ)) xlast.2,
              predSign := if 0 < (fun _ => (1 : ℚ)) xlast.2 then 1
                else 0 }) :=
  c7_latest_forecast (fun _ => (1 : ℚ)) exDF4 "A" 1 0 1 1 (by decide)
    (by decide) (by decide)

/-! ### `build_features` never mutates its input frame -/

theorem heap_get_alloc (hp : Heap) (d : DF) (r : ℕ)
    (hr : r < hp.objs.length) : (hp.alloc d).1.get r = hp.get r := by
  simp only [Heap.alloc, Heap.get]
  rw [List.getD_eq_getElem?_getD, List.getD_eq_getElem?_getD,
    List.getElem?_append, if_pos hr]

theorem heap_alloc_ref (hp : Heap) (d : DF) :
    (hp.alloc d).2 = hp.objs.length := rfl

theorem pres_refl (n : ℕ) (hp : Heap) (hn : n ≤ hp.objs.length) :
    Heap.Pres n hp hp := ⟨hn, fun _ _ => rfl⟩

theorem pres_alloc_of {n : ℕ} {hp hp' : Heap} (h : Heap.Pres n hp hp')
    (d : DF) : Heap.Pres n hp (hp'.alloc d).1 := by
  constructor
  · simp only [Heap.alloc, List.length_append, List.length_singleton]
    have := h.1
    omega
  · intro r hrn
    rw [heap_get_alloc hp' d r (lt_of_lt_of_le hrn h.1)]
    exact h.2 r hrn

theorem pres_set_of {n : ℕ} {hp hp' : Heap} (h : Heap.Pres n hp hp')
    {r' : ℕ} (hle : n ≤ r') (d : DF) : Heap.Pres n hp (hp'.set r' d) := by
  constructor
  · simp only [Heap.set, List.length_set]
    exact h.1
  · intro r hrn
    have hne : r' ≠ r := by omega
    rw [← h.2 r hrn]
    simp only [Heap.set, Heap.get]
    rw [List.getD_eq_getElem?_getD, List.getD_eq_getElem?_getD,
      List.getElem?_set_ne hne]

/-- C10: `build_features` never mutates its input price frame.  Run on
the object heap, statement by statement — with the two in-place writes
of the source modelled as heap mutations — the object at the input
reference is identical before and after the call, in every
configuration of the flags. -/
theorem c10_build_features_no_mutation (hp : Heap) (p : ℕ)
    (im cr : Bool) (lo hi : ℚ) (r : ℕ) (hr : r < hp.objs.length) :
    (buildFeaturesProg hp p im cr lo hi).1.get r = hp.get r := by
  have hframe : Heap.Pres hp.objs.length hp
      (buildFeaturesProg hp p im cr lo hi).1 := by
    cases im <;> cases cr <;>
      unfold buildFeaturesProg <;>
      simp only [Bool.false_eq_true, if_true, if_false, ite_true,
        ite_false, reduceIte]
    · apply pres_alloc_of
      apply pres_alloc_of
      apply pres_alloc_of
      apply pres_alloc_of
      apply pres_alloc_of
      exact pres_refl _ _ le_rfl
    · apply pres_set_of
      · apply pres_alloc_of
        apply pres_alloc_of
        apply pres_alloc_of
        apply pres_alloc_of
        apply pres_alloc_of
        exact pres_refl _ _ le_rfl
      · rw [heap_alloc_ref]
        simp only [Heap.alloc, List.length_append, List.length_singleton]
        omega
    · apply pres_alloc_of
      apply pres_alloc_of
      apply pres_alloc_of
      apply pres_set_of
      · apply pres_alloc_of
        apply pres_alloc_of
        apply pres_alloc_of
        apply pres_alloc_of
        apply pres_alloc_of
        apply pres_alloc_of
        exact pres_refl _ _ le_rfl
      · rw [heap_alloc_ref]
        simp only [Heap.alloc, Heap.set, List.length_append,
          List.length_set, List.length_singleton]
        omega
    · apply pres_set_of
      · apply pres_alloc_of
        apply pres_alloc_of
        apply pres_alloc_of
        apply pres_set_of
        · apply pres_alloc_of
          apply pres_alloc_of
          apply pres_alloc_of
          apply pres_alloc_of
          apply pres_alloc_of
          apply pres_alloc_of
          exact pres_refl _ _ le_rfl
        · rw [heap_alloc_ref]
          simp only [Heap.alloc, Heap.set, List.length_append,
            List.length_set, List.length_singleton]
          omega
      · rw [heap_alloc_ref]
        simp only [Heap.alloc, Heap.set, List.length_append,
          List.length_set, List.length_singleton]
        omega
  exact hframe.2 r hr

theorem c10_build_features_no_mutation_witness :
    (buildFeaturesProg ⟨[exPrices]⟩ 0 true true (-1/5) (1/5)).1.get 0
      = Heap.get ⟨[exPrices]⟩ 0 :=
  c10_build_features_no_mutation ⟨[exPrices]⟩ 0 true true (-1/5) (1/5) 0
    (by decide)

end Trainer
